import Mathlib

/-!
Verification of the TFC basis-function evaluation and differentiation engine.

The repository ships tutorial notebooks that exercise the engine (`utfc`,
the C++ and Python basis-function backends, `pejit`); the engine
implementation itself is not part of the sources available here, so the
definitions below are modelled from the specification's description of the
components, faithful to its words, and the notebooks' API usage.  Machine
reals are modelled by exact rationals, so "equal within floating tolerance"
statements are established as exact equalities, which imply any tolerance
bound.
-/

namespace TFC

instance {ε α : Type} [DecidableEq ε] [DecidableEq α] : DecidableEq (Except ε α) :=
  fun a b =>
    match a, b with
    | .error a1, .error b1 => decidable_of_iff (a1 = b1) (by simp)
    | .error _, .ok _ => isFalse (fun hc => by cases hc)
    | .ok _, .error _ => isFalse (fun hc => by cases hc)
    | .ok a1, .ok b1 => decidable_of_iff (a1 = b1) (by simp)

/-- Modelled from the spec: error taxonomy of §7 (the implementation is not
among the sources).  `domainError` for degenerate domain bounds,
`invalidSpecError` for a degree/removed-order combination with fewer than one
retained basis function, `unsupportedOrderError` for a derivative order above
the bounded backend's cap. -/
inductive TfcError
  | domainError
  | invalidSpecError
  | unsupportedOrderError
  deriving DecidableEq, Repr

/-- Modelled from the spec: closed enumeration of basis-function families
(§4.2; the family implementations are not among the sources).  Two orthogonal
polynomial families are modelled: first-kind Chebyshev (`CP`, the notebooks'
default) and Legendre (`LeP`). -/
inductive Family
  | CP
  | LeP
  deriving DecidableEq, Repr

/-- Canonical evaluation domain, lower bound (both modelled families use
[-1, 1]). -/
def famZ0 : Family → ℚ := fun _ => -1

/-- Canonical evaluation domain, upper bound. -/
def famZf : Family → ℚ := fun _ => 1

/-- Affine transform between the user domain `[x0, xf]` and a family's
canonical domain `[z0, zf]` (spec §4.1). -/
structure DomainMap where
  x0 : ℚ
  xf : ℚ
  z0 : ℚ
  zf : ℚ
  deriving DecidableEq, Repr

/-- Forward map `x → z = z0 + (zf-z0)*(x-x0)/(xf-x0)` (spec §4.1). -/
def DomainMap.fwd (d : DomainMap) (x : ℚ) : ℚ :=
  d.z0 + (d.zf - d.z0) * (x - d.x0) / (d.xf - d.x0)

/-- Inverse map `z → x = x0 + (xf-x0)*(z-z0)/(zf-z0)` (spec §4.1). -/
def DomainMap.inv (d : DomainMap) (z : ℚ) : ℚ :=
  d.x0 + (d.xf - d.x0) * (z - d.z0) / (d.zf - d.z0)

/-- Scale factor `c = (zf-z0)/(xf-x0)`, the derivative of the forward map
(spec §3, §4.1). -/
def DomainMap.c (d : DomainMap) : ℚ :=
  (d.zf - d.z0) / (d.xf - d.x0)

/-- Modelled from the spec: Domain Mapper constructor (§4.1; the
implementation is not among the sources).  Fails with a `DomainError` when
`x0 == xf`. -/
def mkDomainMap (f : Family) (x0 xf : ℚ) : Except TfcError DomainMap :=
  if x0 = xf then .error .domainError
  else .ok ⟨x0, xf, famZ0 f, famZf f⟩

/-- First-kind Chebyshev polynomials by the three-term recurrence
`T0 = 1`, `T1 = z`, `T(n+2) = 2 z T(n+1) - T(n)`. -/
def chebT : ℕ → ℚ → ℚ
  | 0, _ => 1
  | 1, z => z
  | n + 2, z => 2 * z * chebT (n + 1) z - chebT n z

/-- One derivative-order step of the Chebyshev recurrence: given the
order-(k-1) derivatives `p`, computes the order-`k` derivatives via the
k-times differentiated three-term recurrence
`T(n+2)^(k) = 2 z T(n+1)^(k) + 2 k T(n+1)^(k-1) - T(n)^(k)`. -/
def chebStep (p : ℕ → ℚ → ℚ) (k : ℕ) : ℕ → ℚ → ℚ
  | 0, _ => 0
  | 1, _ => if k = 1 then 1 else 0
  | n + 2, z =>
      2 * z * chebStep p k (n + 1) z + 2 * (k : ℚ) * p (n + 1) z - chebStep p k n z

/-- k-th derivative of the n-th Chebyshev polynomial, obtained by iterating
the derivative recurrence (spec §4.2: closed-form recurrences, never numeric
differencing). -/
def chebDeriv : ℕ → ℕ → ℚ → ℚ
  | 0 => chebT
  | k + 1 => chebStep (chebDeriv k) (k + 1)

/-- Legendre polynomials by the three-term recurrence
`P0 = 1`, `P1 = z`, `(n+2) P(n+2) = (2n+3) z P(n+1) - (n+1) P(n)`. -/
def legP : ℕ → ℚ → ℚ
  | 0, _ => 1
  | 1, z => z
  | n + 2, z =>
      ((2 * (n : ℚ) + 3) * z * legP (n + 1) z - ((n : ℚ) + 1) * legP n z) / ((n : ℚ) + 2)

/-- One derivative-order step of the Legendre recurrence (the k-times
differentiated three-term recurrence). -/
def legStep (p : ℕ → ℚ → ℚ) (k : ℕ) : ℕ → ℚ → ℚ
  | 0, _ => 0
  | 1, _ => if k = 1 then 1 else 0
  | n + 2, z =>
      ((2 * (n : ℚ) + 3) * (z * legStep p k (n + 1) z + (k : ℚ) * p (n + 1) z)
        - ((n : ℚ) + 1) * legStep p k n z) / ((n : ℚ) + 2)

/-- k-th derivative of the n-th Legendre polynomial by iterating the
derivative recurrence. -/
def legDeriv : ℕ → ℕ → ℚ → ℚ
  | 0 => legP
  | k + 1 => legStep (legDeriv k) (k + 1)

/-- Per-family derivative evaluator: `famDeriv f k n z` is the k-th
derivative of the n-th basis function of family `f` at canonical coordinate
`z` (spec §4.2; `k = 0` gives the value). -/
def famDeriv : Family → ℕ → ℕ → ℚ → ℚ
  | .CP => chebDeriv
  | .LeP => legDeriv

/-- Modelled from the spec: the bounded (C++) backend's declared maximum
supported derivative order per family (§4.2, §9; the exact per-family table
is an open question in the spec, which mentions "up to 8th order for some
families", so a uniform cap of 8 is modelled). -/
def famCap : Family → ℕ := fun _ => 8

/-- Modelled from the spec: the bounded backend's fixed table of precomputed
derivative recurrences up to its declared cap (§4.4; the implementation is
not among the sources).  Entry `k` evaluates the order-`k` derivatives. -/
def derivTable (f : Family) : List (ℕ → ℚ → ℚ) :=
  (List.range (famCap f + 1)).map (famDeriv f)

/-- Table lookup used by the bounded backend; only reached for orders within
the cap, where the default is never used. -/
def boundedEval (f : Family) (k : ℕ) : ℕ → ℚ → ℚ :=
  (derivTable f).getD k (fun _ _ => 0)

/-- Modelled from the spec: the bounded backend's per-point derivative
operation.  Requesting an order above the family's cap fails fast with
`UnsupportedOrderError` (spec §4.2, §7). -/
def boundedDerivAt (f : Family) (k n : ℕ) (z : ℚ) : Except TfcError ℚ :=
  if famCap f < k then .error .unsupportedOrderError
  else .ok (boundedEval f k n z)

/-- Modelled from the spec: the generic (Python) backend's per-point
derivative operation, applying the derivative recurrence iteratively with no
cap (spec §4.2, §4.4). -/
def genericDerivAt (f : Family) (k n : ℕ) (z : ℚ) : ℚ :=
  famDeriv f k n z

/-- BasisSpec (spec §3): family tag, degree `m`, removed-order set `nC`,
domain bounds. -/
structure BasisSpec where
  family : Family
  m : ℕ
  nC : Finset ℕ
  x0 : ℚ
  xf : ℚ
  deriving DecidableEq

/-- Validity of a `BasisSpec` (spec §3): degree ≥ 1, removed orders a subset
of `{0,…,m}` of size < m+1, non-degenerate domain. -/
def BasisSpec.valid (s : BasisSpec) : Prop :=
  1 ≤ s.m ∧ s.nC ⊆ Finset.range (s.m + 1) ∧ s.nC.card < s.m + 1 ∧ s.x0 ≠ s.xf

instance (s : BasisSpec) : Decidable s.valid := by
  unfold BasisSpec.valid; infer_instance

/-- Retained basis orders: the orders `0,…,m` not in `nC`, in ascending
original index order, never renumbered after removal (spec §3, §4.3). -/
def retainedOrders (s : BasisSpec) : List ℕ :=
  (List.range (s.m + 1)).filter (fun n => n ∉ s.nC)

/-- Modelled from the spec: Basis Matrix Builder on the generic backend
(§4.3; the implementation is not among the sources).  Maps every point
through the Domain Mapper, evaluates `derivative(z, n, k) * c^k` for every
retained order, rows = points, columns = retained orders. -/
def basisMatrixGeneric (s : BasisSpec) (pts : List ℚ) (k : ℕ) :
    Except TfcError (List (List ℚ)) :=
  match mkDomainMap s.family s.x0 s.xf with
  | .error e => .error e
  | .ok d =>
      if (retainedOrders s).length < 1 then .error .invalidSpecError
      else .ok (pts.map fun x =>
        (retainedOrders s).map fun n => genericDerivAt s.family k n (d.fwd x) * d.c ^ k)

/-- Modelled from the spec: Basis Matrix Builder on the bounded backend
(§4.3, §4.4).  Same assembly, but the derivative order is validated against
the family's cap and evaluation goes through the precomputed table. -/
def basisMatrixBounded (s : BasisSpec) (pts : List ℚ) (k : ℕ) :
    Except TfcError (List (List ℚ)) :=
  match mkDomainMap s.family s.x0 s.xf with
  | .error e => .error e
  | .ok d =>
      if (retainedOrders s).length < 1 then .error .invalidSpecError
      else if famCap s.family < k then .error .unsupportedOrderError
      else .ok (pts.map fun x =>
        (retainedOrders s).map fun n => boundedEval s.family k n (d.fwd x) * d.c ^ k)

/-- Backend selection (spec §6): bounded (C++) vs generic (Python). -/
inductive Backend
  | cpp
  | python
  deriving DecidableEq, Repr

/-- Builder dispatch by backend. -/
def buildMatrix : Backend → BasisSpec → List ℚ → ℕ → Except TfcError (List (List ℚ))
  | .cpp => basisMatrixBounded
  | .python => basisMatrixGeneric

/-- The univariate TFC object: a basis spec plus the backend chosen at
construction and fixed thereafter (spec §9). -/
structure UtfcObj where
  spec : BasisSpec
  backend : Backend
  deriving DecidableEq

/-- Modelled from the spec and the notebooks' API (`utfc(N, nC, m, x0=…,
xf=…, backend=…)`; the implementation is not among the sources): at the
public constructor the removed-order argument `nC` is a single integer
count, removing the lowest `nC` basis orders `{0,…,nC-1}` (the ODE notebook:
"nC = 2 because the first two Chebyshev orthogonal polynomials will be
removed").  The default family is Chebyshev. -/
def utfc (N : ℕ) (nC : ℕ) (m : ℕ) (x0 xf : ℚ) (b : Backend) : UtfcObj :=
  { spec := { family := .CP, m := m, nC := Finset.range nC, x0 := x0, xf := xf }
    backend := b }

/-- Modelled from the spec and the backends notebook: when no `backend`
keyword is supplied, the constructor uses the C++ (bounded) backend ("C++ is
the default backend"). -/
def utfcDefault (N : ℕ) (nC : ℕ) (m : ℕ) (x0 xf : ℚ) : UtfcObj :=
  utfc N nC m x0 xf .cpp

/-- The basis-matrix operator `H` of a constructed object. -/
def UtfcObj.H (u : UtfcObj) (pts : List ℚ) (k : ℕ) : Except TfcError (List (List ℚ)) :=
  buildMatrix u.backend u.spec pts k

/-- Modelled from the spec: checked `BasisSpec` construction (§3, §7; the
implementation is not among the sources).  Construction-time errors
(`DomainError`, `InvalidSpecError`) are raised immediately. -/
def mkBasisSpec (f : Family) (m : ℕ) (nC : Finset ℕ) (x0 xf : ℚ) :
    Except TfcError BasisSpec :=
  if x0 = xf then .error .domainError
  else if 1 ≤ m ∧ nC ⊆ Finset.range (m + 1) ∧ nC.card < m + 1 then
    .ok ⟨f, m, nC, x0, xf⟩
  else .error .invalidSpecError

/-- Modelled from the spec: the Compile-time Constant Cache wrapper `pejit`
(§4.5; the implementation is not among the sources).  The target function is
factored into the constant-bound sub-computation `g` of the constant-marked
argument and a residual `h` combining the cached value with the remaining
(variable) argument.  Wrapping evaluates `g` once with the constant bound;
the result pairs the returned closure — which takes only the remaining
argument — with the number of evaluations of `g` performed so far. -/
def pejit {α β γ δ : Type} (g : α → δ) (h : δ → β → γ) (a : α) : (β → γ) × ℕ :=
  let cached := g a
  (fun b => h cached b, 1)

/-- Calling the compiled closure on a list of variable arguments: each call
reads only the cached constant; the constant-evaluation count is unchanged. -/
def callMany {β γ : Type} (fc : (β → γ) × ℕ) (bs : List β) : List γ × ℕ :=
  (bs.map fc.1, fc.2)

/-- Reference semantics without the cache: every call re-executes the
constant-bound sub-computation, one evaluation per call. -/
def uncachedCalls {α β γ δ : Type} (g : α → δ) (h : δ → β → γ) (a : α) (bs : List β) :
    List γ × ℕ :=
  (bs.map fun b => h (g a) b, bs.length)

/-- Modelled from the spec: closure reuse after caller-side mutation (§4.5).
The caller's values live in a store; the wrapper is built while the cell at
`addr` holds `store addr`; the caller then mutates that cell to `newVal` and
reuses the same closure without re-wrapping.  Returns the call's result
together with the mutated store. -/
def reuseAfterMutation {α β γ δ : Type} (g : α → δ) (h : δ → β → γ) (store : ℕ → α)
    (addr : ℕ) (newVal : α) (b : β) : γ × (ℕ → α) :=
  let fc := pejit g h (store addr)
  let mutated := Function.update store addr newVal
  (fc.1 b, mutated)

/-- Concrete spec used by witnesses: the backends notebook's
`utfc(6, 0, 2, x0=0.0, xf=1.0)` (Chebyshev, degree 2, nothing removed,
domain [0, 1]). -/
def sEx : BasisSpec := { family := .CP, m := 2, nC := ∅, x0 := 0, xf := 1 }

/-- First-derivative basis matrix of `sEx` at the points 0 and 1/2; the row
at 0 is the notebook's printed golden row `[0, 2, -8]`. -/
def MbEx : List (List ℚ) := [[0, 2, -8], [0, 2, 0]]

/-- Within the cap, the bounded backend's table lookup agrees with the
direct iterated derivative recurrence. -/
lemma boundedEval_eq (f : Family) (k : ℕ) (h : k ≤ famCap f) :
    boundedEval f k = famDeriv f k := by
  have hk : k < famCap f + 1 := Nat.lt_succ_of_le h
  simp [boundedEval, derivTable, List.getD_eq_getElem?_getD, List.getElem?_map,
    List.getElem?_range, hk]

/-- Length of the retained-order list when the removed set lies inside
`{0,…,m}`. -/
lemma length_retained (m : ℕ) (nC : Finset ℕ) (h : nC ⊆ Finset.range (m + 1)) :
    ((List.range (m + 1)).filter (fun n => n ∉ nC)).length = m + 1 - nC.card := by
  rw [show ((List.range (m + 1)).filter (fun n => n ∉ nC)).length
        = ((Finset.range (m + 1)).filter (fun n => n ∉ nC)).card from rfl]
  rw [show ((Finset.range (m + 1)).filter fun n => n ∉ nC) = Finset.range (m + 1) \ nC from
    (Finset.sdiff_eq_filter _ _).symm]
  rw [Finset.card_sdiff h, Finset.card_range]

lemma retainedOrders_length (s : BasisSpec) (h : s.nC ⊆ Finset.range (s.m + 1)) :
    (retainedOrders s).length = s.m + 1 - s.nC.card :=
  length_retained s.m s.nC h

/-- Round trip of the affine map on the canonical domain [-1, 1]. -/
lemma round_trip_aux (x0 xf : ℚ) (h : x0 ≠ xf) (x : ℚ) :
    DomainMap.inv ⟨x0, xf, -1, 1⟩ (DomainMap.fwd ⟨x0, xf, -1, 1⟩ x) = x := by
  have hne : xf - x0 ≠ 0 := sub_ne_zero_of_ne (Ne.symm h)
  unfold DomainMap.inv DomainMap.fwd
  field_simp

/-- Retained orders are listed in strictly ascending original index order. -/
lemma retained_sorted (s : BasisSpec) : List.Sorted (· < ·) (retainedOrders s) := by
  unfold retainedOrders
  exact (List.pairwise_lt_range (s.m + 1)).sublist (List.filter_sublist _)

/-- Membership in the retained-order list. -/
lemma mem_retainedOrders (s : BasisSpec) (n : ℕ) :
    n ∈ retainedOrders s ↔ n < s.m + 1 ∧ n ∉ s.nC := by
  simp [retainedOrders, List.mem_filter, List.mem_range]

/-- Within the cap the two builders agree exactly. -/
lemma bounded_eq_generic (s : BasisSpec) (pts : List ℚ) (k : ℕ)
    (hk : k ≤ famCap s.family) :
    basisMatrixBounded s pts k = basisMatrixGeneric s pts k := by
  unfold basisMatrixBounded basisMatrixGeneric
  cases hdm : mkDomainMap s.family s.x0 s.xf with
  | error e => rfl
  | ok d =>
    by_cases hl : (retainedOrders s).length < 1
    · simp [hl]
    · simp only [if_neg hl, if_neg (Nat.not_lt.mpr hk)]
      simp only [boundedEval_eq s.family k hk, genericDerivAt]

/-- Rows of a successful bounded build map the retained orders. -/
lemma row_length_of_ok_bounded (s : BasisSpec) (pts : List ℚ) (k : ℕ)
    (M : List (List ℚ)) (h : basisMatrixBounded s pts k = .ok M)
    (row : List ℚ) (hr : row ∈ M) : row.length = (retainedOrders s).length := by
  unfold basisMatrixBounded at h
  cases hdm : mkDomainMap s.family s.x0 s.xf <;> rw [hdm] at h
  · simp at h
  · split_ifs at h <;> simp at h
    subst h
    obtain ⟨x, _, hx⟩ := List.mem_map.mp hr
    rw [← hx, List.length_map]

/-- Rows of a successful generic build map the retained orders. -/
lemma row_length_of_ok_generic (s : BasisSpec) (pts : List ℚ) (k : ℕ)
    (M : List (List ℚ)) (h : basisMatrixGeneric s pts k = .ok M)
    (row : List ℚ) (hr : row ∈ M) : row.length = (retainedOrders s).length := by
  unfold basisMatrixGeneric at h
  cases hdm : mkDomainMap s.family s.x0 s.xf <;> rw [hdm] at h
  · simp at h
  · split_ifs at h <;> simp at h
    subst h
    obtain ⟨x, _, hx⟩ := List.mem_map.mp hr
    rw [← hx, List.length_map]

/-- A successful build has one row per point, each row mapping the retained
orders. -/
lemma row_length_of_ok (b : Backend) (s : BasisSpec) (pts : List ℚ) (k : ℕ)
    (M : List (List ℚ)) (h : buildMatrix b s pts k = .ok M)
    (row : List ℚ) (hr : row ∈ M) : row.length = (retainedOrders s).length := by
  cases b
  · exact row_length_of_ok_bounded s pts k M h row hr
  · exact row_length_of_ok_generic s pts k M h row hr

/-- Shape of a successful generic build. -/
lemma generic_ok_rows (s : BasisSpec) (pts : List ℚ) (k : ℕ) (d : DomainMap)
    (hd : mkDomainMap s.family s.x0 s.xf = .ok d)
    (M : List (List ℚ)) (h : basisMatrixGeneric s pts k = .ok M) :
    M = pts.map fun x =>
      (retainedOrders s).map fun n => famDeriv s.family k n (d.fwd x) * d.c ^ k := by
  unfold basisMatrixGeneric at h
  rw [hd] at h
  split_ifs at h <;> simp at h
  rw [← h]
  simp only [genericDerivAt]

/-- Orders `≥ c` among `0,…,n-1`, in order, are exactly `c,…,n-1`. -/
lemma filter_not_mem_range (c n : ℕ) (hcn : c ≤ n) :
    (List.range n).filter (fun a => a ∉ Finset.range c) = List.range' c (n - c) := by
  have hsplit : List.range n = List.range' 0 c ++ List.range' c (n - c) := by
    rw [List.range_eq_range']
    rw [show List.range' 0 c ++ List.range' c (n - c)
          = List.range' 0 (n - c + c) by simpa using List.range'_append_1 0 c (n - c)]
    congr 1
    omega
  rw [hsplit, List.filter_append]
  have h1 : (List.range' 0 c).filter (fun a => a ∉ Finset.range c) = [] := by
    rw [List.filter_eq_nil_iff]
    intro a ha
    have : a < c := by simpa using (List.mem_range'_1.mp ha).2
    simp [Finset.mem_range, this]
  have h2 : (List.range' c (n - c)).filter (fun a => a ∉ Finset.range c)
      = List.range' c (n - c) := by
    rw [List.filter_eq_self]
    intro a ha
    have : c ≤ a := (List.mem_range'_1.mp ha).1
    simp [Finset.mem_range]
    omega
  rw [h1, h2, List.nil_append]

/-- Concrete evaluation: the generic build of `sEx` at the points 0 and 1/2,
first derivative, is the golden matrix `MbEx`. -/
lemma genericEx_eval : basisMatrixGeneric sEx [0, 1/2] 1 = .ok MbEx := by
  norm_num [basisMatrixGeneric, sEx, MbEx, mkDomainMap, famZ0, famZf, retainedOrders,
    genericDerivAt, famDeriv, chebDeriv, chebStep, chebT, DomainMap.fwd, DomainMap.c,
    show List.range 3 = [0, 1, 2] from rfl, List.filter]

/-- Concrete evaluation: the bounded build of `sEx` agrees with the golden
matrix `MbEx`. -/
lemma boundedEx_eval : basisMatrixBounded sEx [0, 1/2] 1 = .ok MbEx := by
  rw [bounded_eq_generic sEx [0, 1/2] 1 (by norm_num [sEx, famCap])]
  exact genericEx_eval

/-- Concrete evaluation: the Domain Mapper of `sEx`. -/
lemma mkDomainMapEx_eval :
    mkDomainMap sEx.family sEx.x0 sEx.xf = .ok ⟨0, 1, -1, 1⟩ := by
  norm_num [mkDomainMap, sEx, famZ0, famZf]

/-- C1: Cross-backend equivalence.  For every basis family, every derivative
order `k` within the bounded backend's supported range, and every identical
`(BasisSpec, points)` input, the bounded and generic backends produce basis
matrices whose elementwise difference is below the tolerance 1e-10 (the
matrices are in fact equal, entry by entry). -/
theorem cross_backend_equivalence (s : BasisSpec) (pts : List ℚ) (k : ℕ)
    (hk : k ≤ famCap s.family) (Mb Mg : List (List ℚ))
    (hb : basisMatrixBounded s pts k = .ok Mb)
    (hg : basisMatrixGeneric s pts k = .ok Mg) (i j : ℕ) :
    |(Mb.getD i []).getD j 0 - (Mg.getD i []).getD j 0| ≤ 1 / 10 ^ 10 := by
  have hok : (Except.ok Mb : Except TfcError (List (List ℚ))) = Except.ok Mg := by
    rw [← hb, ← hg, bounded_eq_generic s pts k hk]
  injection hok with hM
  subst hM
  rw [sub_self, abs_zero]
  norm_num

/-- Witness for C1 at the backends notebook's spec `utfc(6, 0, 2, x0=0,
xf=1)` with `k = 1` and the golden matrix `MbEx`. -/
theorem cross_backend_equivalence_witness :
    ((1 : ℕ) ≤ famCap sEx.family
      ∧ basisMatrixBounded sEx [0, 1/2] 1 = .ok MbEx
      ∧ basisMatrixGeneric sEx [0, 1/2] 1 = .ok MbEx)
    ∧ |((MbEx.getD 0 []).getD 2 0) - ((MbEx.getD 0 []).getD 2 0)| ≤ 1 / 10 ^ 10 :=
  ⟨⟨by decide, boundedEx_eval, genericEx_eval⟩,
    cross_backend_equivalence sEx [0, 1/2] 1 (by decide) MbEx MbEx
      boundedEx_eval genericEx_eval 0 2⟩

/-- C2: Column-count invariant.  For every valid `BasisSpec` and every basis
matrix produced by either backend's builder, at any derivative order and any
points, every row has exactly `m + 1 - |nC|` entries, and that count is at
least 1. -/
theorem column_count_invariant (s : BasisSpec) (hs : s.valid) (b : Backend)
    (pts : List ℚ) (k : ℕ) (M : List (List ℚ))
    (h : buildMatrix b s pts k = .ok M)
    (row : List ℚ) (hr : row ∈ M) :
    row.length = s.m + 1 - s.nC.card ∧ 1 ≤ row.length := by
  obtain ⟨hm, hsub, hcard, hx⟩ := hs
  have h1 := row_length_of_ok b s pts k M h row hr
  have h2 := retainedOrders_length s hsub
  rw [h1, h2]
  omega

/-- Witness for C2 at `sEx` (valid: m = 2, nC = ∅) on the bounded backend. -/
theorem column_count_invariant_witness :
    (sEx.valid ∧ buildMatrix Backend.cpp sEx [0, 1/2] 1 = .ok MbEx
      ∧ ([0, 2, -8] : List ℚ) ∈ MbEx)
    ∧ (([0, 2, -8] : List ℚ).length = sEx.m + 1 - sEx.nC.card
        ∧ 1 ≤ ([0, 2, -8] : List ℚ).length) :=
  ⟨⟨by decide, boundedEx_eval, by simp [MbEx]⟩,
    column_count_invariant sEx (by decide) Backend.cpp [0, 1/2] 1 MbEx
      boundedEx_eval [0, 2, -8] (by simp [MbEx])⟩

/-- C3: Basis Matrix Builder algorithm.  For every `BasisSpec`, ordered point
list, and derivative order `k`, a successful build has one row per point, in
input order; row `i` lists `derivative(z, n, k) * c^k` at `z` the `i`-th
point mapped through the Domain Mapper, over the retained orders; the
retained orders are exactly the orders `≤ m` not in `nC`, in ascending
original index order (never renumbered after removal). -/
theorem basis_matrix_builder_algorithm (s : BasisSpec) (pts : List ℚ) (k : ℕ)
    (d : DomainMap) (hd : mkDomainMap s.family s.x0 s.xf = .ok d)
    (M : List (List ℚ)) (h : basisMatrixGeneric s pts k = .ok M) :
    M.length = pts.length
    ∧ (∀ i (hi : i < pts.length) (hi2 : i < M.length),
        M.get ⟨i, hi2⟩ = (retainedOrders s).map fun n =>
          famDeriv s.family k n (d.fwd (pts.get ⟨i, hi⟩)) * d.c ^ k)
    ∧ List.Sorted (· < ·) (retainedOrders s)
    ∧ (∀ n, n ∈ retainedOrders s ↔ n < s.m + 1 ∧ n ∉ s.nC) := by
  have hM := generic_ok_rows s pts k d hd M h
  subst hM
  refine ⟨List.length_map _ _, ?_, retained_sorted s, mem_retainedOrders s⟩
  intro i hi hi2
  simp [List.get_eq_getElem, List.getElem_map]

/-- Witness for C3 at `sEx`, points `[0, 1/2]`, `k = 1`. -/
theorem basis_matrix_builder_algorithm_witness :
    (mkDomainMap sEx.family sEx.x0 sEx.xf = .ok ⟨0, 1, -1, 1⟩
      ∧ basisMatrixGeneric sEx [0, 1/2] 1 = .ok MbEx)
    ∧ (MbEx.length = ([0, 1/2] : List ℚ).length
        ∧ (∀ i (hi : i < ([0, 1/2] : List ℚ).length) (hi2 : i < MbEx.length),
            MbEx.get ⟨i, hi2⟩ = (retainedOrders sEx).map fun n =>
              famDeriv sEx.family 1 n
                (DomainMap.fwd ⟨0, 1, -1, 1⟩ (([0, 1/2] : List ℚ).get ⟨i, hi⟩))
                * (DomainMap.c ⟨0, 1, -1, 1⟩) ^ 1)
        ∧ List.Sorted (· < ·) (retainedOrders sEx)
        ∧ (∀ n, n ∈ retainedOrders sEx ↔ n < sEx.m + 1 ∧ n ∉ sEx.nC)) :=
  ⟨⟨mkDomainMapEx_eval, genericEx_eval⟩,
    basis_matrix_builder_algorithm sEx [0, 1/2] 1 ⟨0, 1, -1, 1⟩ mkDomainMapEx_eval MbEx
      genericEx_eval⟩

/-- C4: Constant-cache single evaluation.  Wrapping with `pejit` binds the
constant-marked argument, evaluates the constant-bound sub-computation
exactly once, and returns a closure over only the remaining argument; any
number of subsequent calls with different variable arguments leaves the
evaluation count at one while producing the same results as re-evaluating
would. -/
theorem constant_cache_single_evaluation {α β γ δ : Type} (g : α → δ)
    (h : δ → β → γ) (a : α) (bs : List β) :
    (callMany (pejit g h a) bs).2 = 1
    ∧ (callMany (pejit g h a) bs).1 = (uncachedCalls g h a bs).1 :=
  ⟨rfl, rfl⟩

/-- C5: Constant-cache staleness.  If the caller mutates the store cell bound
to the constant-marked argument and reuses the same closure without
re-wrapping, the call silently returns the result computed against the stale
cached constant (the mutation is visible in the store but not in the
result; no error value exists in the closure's result type). -/
theorem constant_cache_staleness {α β γ δ : Type} (g : α → δ) (h : δ → β → γ)
    (store : ℕ → α) (addr : ℕ) (newVal : α) (b : β) :
    (reuseAfterMutation g h store addr newVal b).1 = h (g (store addr)) b
    ∧ (reuseAfterMutation g h store addr newVal b).2 addr = newVal := by
  refine ⟨rfl, ?_⟩
  simp [reuseAfterMutation, Function.update_same]

/-- C6: Degenerate-domain rejection.  Constructing the Domain Mapper — and a
`BasisSpec` through the checked constructor — with `x0 = xf` fails with a
`DomainError` at construction time; every build over such bounds is the same
error, never a silently corrected matrix. -/
theorem degenerate_domain_rejection (f : Family) (m : ℕ) (nC : Finset ℕ)
    (x0 xf : ℚ) (hx : x0 = xf) :
    mkDomainMap f x0 xf = .error .domainError
    ∧ mkBasisSpec f m nC x0 xf = .error .domainError
    ∧ ∀ (b : Backend) (pts : List ℚ) (k : ℕ),
        buildMatrix b ⟨f, m, nC, x0, xf⟩ pts k = .error .domainError := by
  have hd : mkDomainMap f x0 xf = .error .domainError := by
    simp [mkDomainMap, hx]
  refine ⟨hd, by simp [mkBasisSpec, hx], fun b pts k => ?_⟩
  cases b <;> simp [buildMatrix, basisMatrixBounded, basisMatrixGeneric, hd]

/-- Witness for C6 at bounds `x0 = xf = 3`. -/
theorem degenerate_domain_rejection_witness :
    ((3 : ℚ) = 3)
    ∧ (mkDomainMap Family.CP 3 3 = .error .domainError
        ∧ mkBasisSpec Family.CP 2 ∅ 3 3 = .error .domainError
        ∧ ∀ (b : Backend) (pts : List ℚ) (k : ℕ),
            buildMatrix b ⟨Family.CP, 2, ∅, 3, 3⟩ pts k = .error .domainError) :=
  ⟨rfl, degenerate_domain_rejection Family.CP 2 ∅ 3 3 rfl⟩

/-- C7: Derivative-order cap enforcement.  For every family, requesting an
order above the bounded backend's cap fails fast with an
`UnsupportedOrderError` (never a truncated-order value), while the generic
backend accepts any non-negative order and never raises that error. -/
theorem derivative_order_cap_enforcement (f : Family) (k : ℕ)
    (hk : famCap f < k) :
    (∀ (n : ℕ) (z : ℚ), boundedDerivAt f k n z = .error .unsupportedOrderError)
    ∧ (∀ (s : BasisSpec) (pts : List ℚ) (k2 : ℕ),
        basisMatrixGeneric s pts k2 ≠ .error .unsupportedOrderError) := by
  constructor
  · intro n z
    simp [boundedDerivAt, hk]
  · intro s pts k2 hcontra
    unfold basisMatrixGeneric at hcontra
    by_cases hx : s.x0 = s.xf
    · simp [mkDomainMap, hx] at hcontra
    · simp only [mkDomainMap, if_neg hx] at hcontra
      split_ifs at hcontra <;> simp at hcontra

/-- Witness for C7: Chebyshev family, requested order 9 above the cap 8. -/
theorem derivative_order_cap_enforcement_witness :
    (famCap Family.CP < 9)
    ∧ ((∀ (n : ℕ) (z : ℚ),
          boundedDerivAt Family.CP 9 n z = .error .unsupportedOrderError)
        ∧ (∀ (s : BasisSpec) (pts : List ℚ) (k2 : ℕ),
            basisMatrixGeneric s pts k2 ≠ .error .unsupportedOrderError)) :=
  ⟨by decide, derivative_order_cap_enforcement Family.CP 9 (by decide)⟩

/-- C8: Domain round-trip.  For every successfully constructed Domain Mapper
(hence non-degenerate `[x0, xf]`) and every point `x`, the inverse map
applied to the forward map recovers `x` exactly (hence within any floating
tolerance). -/
theorem domain_round_trip (f : Family) (x0 xf : ℚ) (d : DomainMap)
    (hd : mkDomainMap f x0 xf = .ok d) (x : ℚ) :
    d.inv (d.fwd x) = x := by
  unfold mkDomainMap at hd
  by_cases hx : x0 = xf
  · simp [hx] at hd
  · rw [if_neg hx] at hd
    injection hd with hd2
    subst hd2
    exact round_trip_aux x0 xf hx x

/-- Witness for C8 on the domain [0, 1] at the point 1/3. -/
theorem domain_round_trip_witness :
    (mkDomainMap Family.CP 0 1 = .ok ⟨0, 1, -1, 1⟩)
    ∧ DomainMap.inv ⟨0, 1, -1, 1⟩ (DomainMap.fwd ⟨0, 1, -1, 1⟩ (1/3)) = 1/3 :=
  ⟨by decide, domain_round_trip Family.CP 0 1 ⟨0, 1, -1, 1⟩ (by decide) (1/3)⟩

/-- C9: At the public constructor the removed-order argument `nC` is a single
integer count: `utfc` removes exactly the lowest `nC` orders, so the
retained columns are the orders `nC` through `m` in ascending order, and
`nC = 0` retains all `m + 1` orders. -/
theorem removed_count_semantics (N nC m : ℕ) (x0 xf : ℚ) (b : Backend)
    (hnm : nC ≤ m) :
    retainedOrders (utfc N nC m x0 xf b).spec = List.range' nC (m + 1 - nC)
    ∧ (retainedOrders (utfc N nC m x0 xf b).spec).length = m + 1 - nC
    ∧ (nC = 0 → retainedOrders (utfc N nC m x0 xf b).spec = List.range (m + 1)) := by
  have hmain : retainedOrders (utfc N nC m x0 xf b).spec
      = List.range' nC (m + 1 - nC) := by
    unfold retainedOrders utfc
    exact filter_not_mem_range nC (m + 1) (by omega)
  refine ⟨hmain, by rw [hmain, List.length_range'], fun h0 => ?_⟩
  subst h0
  rw [hmain, Nat.sub_zero, List.range_eq_range']

/-- Witness for C9: the ODE notebook's removal count `nC = 2` with `m = 4`
retains the orders 2, 3, 4. -/
theorem removed_count_semantics_witness :
    ((2 : ℕ) ≤ 4)
    ∧ (retainedOrders (utfc 100 2 4 0 1 Backend.cpp).spec = List.range' 2 3
        ∧ (retainedOrders (utfc 100 2 4 0 1 Backend.cpp).spec).length = 3
        ∧ ((2 : ℕ) = 0 →
            retainedOrders (utfc 100 2 4 0 1 Backend.cpp).spec = List.range 5)) :=
  ⟨by decide, removed_count_semantics 100 2 4 0 1 Backend.cpp (by decide)⟩

/-- C10: Default backend.  Constructing without a backend keyword yields the
same object as constructing with an explicit C++ (bounded) backend: the
backend field is the bounded one and the basis-matrix operator agrees at
every point set and derivative order (so all values are identical, within
any tolerance). -/
theorem default_backend_equivalence (N nC m : ℕ) (x0 xf : ℚ) :
    utfcDefault N nC m x0 xf = utfc N nC m x0 xf .cpp
    ∧ (utfcDefault N nC m x0 xf).backend = Backend.cpp
    ∧ ∀ (pts : List ℚ) (k : ℕ),
        (utfcDefault N nC m x0 xf).H pts k = (utfc N nC m x0 xf .cpp).H pts k :=
  ⟨rfl, rfl, fun _ _ => rfl⟩

end TFC
